import Mathlib

/-!
Verification of the indent/region core of the marmot-narrow-to-region
editor extension (src/extension.ts, auto-sync variant, and the unnamed
manual-widen variant).  Text is modelled as `List Char`; JavaScript
string columns (UTF-16 units) coincide with character counts on the
BMP/ASCII text these claims exercise.
-/

set_option autoImplicit false

namespace Marmot

/-- Whitespace test matching the JavaScript regex class `\s` (which is also
the character set removed by `String.prototype.trim`). -/
def isWs (c : Char) : Bool :=
  c == ' ' || c == '\t' || c == '\n' || c == '\r' || c == '\u000B' || c == '\u000C' ||
  c == '\u00A0' || c == '\u1680' || (0x2000 ≤ c.toNat && c.toNat ≤ 0x200A) ||
  c == '\u2028' || c == '\u2029' || c == '\u202F' || c == '\u205F' ||
  c == '\u3000' || c == '\uFEFF'

/-- Push a character onto the front of the first line of a split result
(used by the line splitters below). -/
def consHead (c : Char) : List (List Char) → List (List Char)
  | [] => [[c]]
  | l :: ls => (c :: l) :: ls

/-- JavaScript `text.split(/\r?\n/)`: a `\n` optionally preceded by `\r`
separates lines; a lone `\r` stays inside its line. -/
def splitLines : List Char → List (List Char)
  | [] => [[]]
  | '\n' :: rest => [] :: splitLines rest
  | '\r' :: '\n' :: rest => [] :: splitLines rest
  | c :: rest => consHead c (splitLines rest)

/-- JavaScript `text.split('\n')`: split on bare newlines only (the split
convention used by the claim wording for `remapRangeEnd`). -/
def splitOnNl : List Char → List (List Char)
  | [] => [[]]
  | c :: rest =>
    if c = '\n' then [] :: splitOnNl rest
    else consHead c (splitOnNl rest)

/-- JavaScript `lines.join('\n')`. -/
def joinN : List (List Char) → List Char
  | [] => []
  | [l] => l
  | l :: ls => l ++ '\n' :: joinN ls

/-- A line is blank when `line.trim().length === 0`, i.e. every character
is whitespace. -/
def isBlank (l : List Char) : Bool := l.all isWs

/-- JavaScript `line.match(/^\s*/)![0]`: the leading whitespace run. -/
def leadingWs (l : List Char) : List Char := l.takeWhile isWs

/-- The body of the `reduce` callback in `getCommonIndent`: the longest
character-by-character common prefix of two strings. -/
def commonPrefixOf : List Char → List Char → List Char
  | a :: as, b :: bs => if a = b then a :: commonPrefixOf as bs else []
  | _, _ => []

/-- The non-blank lines of a text, as filtered by `getCommonIndent`. -/
def nonblankLines (t : List Char) : List (List Char) :=
  (splitLines t).filter (fun l => !isBlank l)

/-- `getCommonIndent` from src/extension.ts lines 15-24: split on
`/\r?\n/`, drop blank lines, take the leading whitespace run of each survivor,
and reduce by pairwise common prefix (empty when no non-blank line
exists). -/
def getCommonIndent (t : List Char) : List Char :=
  match nonblankLines t with
  | [] => []
  | l :: ls => (ls.map leadingWs).foldl commonPrefixOf (leadingWs l)

/-- The per-line body of `removeIndent`:
`line.startsWith(indent) ? line.substring(indent.length) : line`. -/
def stripLine (ind l : List Char) : List Char :=
  if ind.isPrefixOf l then l.drop ind.length else l

/-- The per-line body of `addIndent`:
`line.length > 0 ? indent + line : line`. -/
def indentLine (ind l : List Char) : List Char :=
  if l.length > 0 then ind ++ l else l

/-- `removeIndent` from src/extension.ts lines 26-29: with a falsy (empty)
indent the input is returned untouched; otherwise every line that starts
with `indent` loses that literal prefix and the lines are rejoined with
`\n`. -/
def removeIndent (t ind : List Char) : List Char :=
  if ind = [] then t
  else joinN ((splitLines t).map (stripLine ind))

/-- `addIndent` from src/extension.ts lines 31-34: with a falsy (empty)
indent the input is returned untouched; otherwise `indent` is prepended to
every non-empty line and the lines are rejoined with `\n`. -/
def addIndent (t ind : List Char) : List Char :=
  if ind = [] then t
  else joinN ((splitLines t).map (indentLine ind))

/-- vscode.Position: zero-based line and column. -/
structure Pos where
  line : Nat
  character : Nat
deriving DecidableEq

/-- vscode.Range (field `endPos` renders the source field `end`, a reserved
word in Lean). -/
structure Range where
  start : Pos
  endPos : Pos
deriving DecidableEq

/-- The new-end computation shared by the changeListener (extension.ts
lines 115-120) and the manual widen (part_000 lines 104-108): split the
replacement on `/\r?\n/`; the end lands `lines.length - 1` lines below the
start, at column `start.character + length` of the sole line when the
replacement is single-line, else at the length of the last line. -/
def remapRangeEnd (start : Pos) (text : List Char) : Pos :=
  let lines := splitLines text
  let lastLineIndex := lines.length - 1
  let lastLine := lines.getLastD []
  ⟨start.line + lastLineIndex,
   if lastLineIndex = 0 then start.character + lastLine.length else lastLine.length⟩

/-- Modelled from the wording of claim C3: split the replacement on
`\n`; a single line yields `(start.line, start.column + length)`, several
lines yield `(start.line + numberOfLines - 1, length of the last
line)`. -/
def remapRangeEndSpec (start : Pos) (text : List Char) : Pos :=
  let lines := splitOnNl text
  if lines.length = 1 then
    ⟨start.line, start.character + (lines.getLastD []).length⟩
  else
    ⟨start.line + (lines.length - 1), (lines.getLastD []).length⟩

theorem consHead_ne_nil (c : Char) (L : List (List Char)) : consHead c L ≠ [] := by
  cases L <;> simp [consHead]

theorem consHead_length (c : Char) (L : List (List Char)) (h : L ≠ []) :
    (consHead c L).length = L.length := by
  cases L with
  | nil => exact absurd rfl h
  | cons l ls => simp [consHead]

theorem splitLines_ne_nil (t : List Char) : splitLines t ≠ [] := by
  induction t using splitLines.induct with
  | case1 => simp [splitLines]
  | case2 rest ih => simp [splitLines]
  | case3 rest ih => simp [splitLines]
  | case4 c rest h1 h2 ih =>
    rw [splitLines.eq_4 c rest h1 h2]
    exact consHead_ne_nil c _

theorem splitOnNl_ne_nil (t : List Char) : splitOnNl t ≠ [] := by
  induction t with
  | nil => simp [splitOnNl]
  | cons c rest ih =>
    by_cases h : c = '\n' <;> simp [splitOnNl, h, consHead_ne_nil]

theorem getLastD_cons_ne (a : List Char) (L : List (List Char)) (h : L ≠ []) :
    (a :: L).getLastD [] = L.getLastD [] := by
  cases L with
  | nil => exact absurd rfl h
  | cons b bs =>
    induction bs generalizing a b with
    | nil => rfl
    | cons x xs ih => exact ih b x (by simp)

theorem consHead_getLastD (c : Char) (L : List (List Char)) (h : L ≠ []) :
    (consHead c L).getLastD [] =
      if L.length = 1 then c :: L.getLastD [] else L.getLastD [] := by
  cases L with
  | nil => exact absurd rfl h
  | cons l ls =>
    cases ls with
    | nil => simp [consHead]
    | cons l2 ls2 =>
      simp only [consHead, List.length_cons]
      rw [getLastD_cons_ne (c :: l) (l2 :: ls2) (by simp),
          getLastD_cons_ne l (l2 :: ls2) (by simp)]
      simp

/-- The two split conventions produce the same number of lines and the
same final line on every input (a match of `/\r?\n/` consumes exactly one
`\n`, and the final segment follows the final `\n` in both). -/
theorem splitLines_len_last (t : List Char) :
    (splitLines t).length = (splitOnNl t).length ∧
    (splitLines t).getLastD [] = (splitOnNl t).getLastD [] := by
  induction t using splitLines.induct with
  | case1 => exact ⟨rfl, rfl⟩
  | case2 rest ih =>
    constructor
    · simp [splitLines, splitOnNl, ih.1]
    · rw [splitLines.eq_2]
      show ([] :: splitLines rest).getLastD [] = (splitOnNl ('\n' :: rest)).getLastD []
      rw [getLastD_cons_ne [] _ (splitLines_ne_nil rest), ih.2]
      show (splitOnNl rest).getLastD [] = (splitOnNl ('\n' :: rest)).getLastD []
      rw [show splitOnNl ('\n' :: rest) = [] :: splitOnNl rest by simp [splitOnNl],
          getLastD_cons_ne [] _ (splitOnNl_ne_nil rest)]
  | case3 rest ih =>
    have hsp : splitOnNl ('\r' :: '\n' :: rest) = ['\r'] :: splitOnNl rest := by
      rw [show splitOnNl ('\r' :: '\n' :: rest) = consHead '\r' (splitOnNl ('\n' :: rest)) by
            simp [splitOnNl],
          show splitOnNl ('\n' :: rest) = [] :: splitOnNl rest by simp [splitOnNl]]
      rfl
    rw [splitLines.eq_3, hsp]
    constructor
    · simp [ih.1]
    · rw [getLastD_cons_ne [] _ (splitLines_ne_nil rest),
          getLastD_cons_ne ['\r'] _ (splitOnNl_ne_nil rest)]
      exact ih.2
  | case4 c rest h1 h2 ih =>
    have hc : ¬ c = '\n' := h1
    have hsp : splitOnNl (c :: rest) = consHead c (splitOnNl rest) := by
      simp [splitOnNl, hc]
    rw [splitLines.eq_4 c rest h1 h2, hsp]
    have hA := splitLines_ne_nil rest
    have hB := splitOnNl_ne_nil rest
    constructor
    · rw [consHead_length c _ hA, consHead_length c _ hB, ih.1]
    · rw [consHead_getLastD c _ hA, consHead_getLastD c _ hB, ih.1, ih.2]

theorem commonPrefixOf_pre_left (a : List Char) : ∀ b : List Char, commonPrefixOf a b <+: a := by
  induction a with
  | nil => intro b; cases b <;> simp [commonPrefixOf]
  | cons x xs ih =>
    intro b
    cases b with
    | nil => simp [commonPrefixOf]
    | cons y ys =>
      by_cases h : x = y
      · subst h
        have he : commonPrefixOf (x :: xs) (x :: ys) = x :: commonPrefixOf xs ys := by
          simp [commonPrefixOf]
        rw [he]
        exact List.cons_prefix_cons.mpr ⟨rfl, ih ys⟩
      · simp [commonPrefixOf, h]

theorem commonPrefixOf_pre_right (a : List Char) : ∀ b : List Char, commonPrefixOf a b <+: b := by
  induction a with
  | nil => intro b; cases b <;> simp [commonPrefixOf]
  | cons x xs ih =>
    intro b
    cases b with
    | nil => simp [commonPrefixOf]
    | cons y ys =>
      by_cases h : x = y
      · subst h
        have he : commonPrefixOf (x :: xs) (x :: ys) = x :: commonPrefixOf xs ys := by
          simp [commonPrefixOf]
        rw [he]
        exact List.cons_prefix_cons.mpr ⟨rfl, ih ys⟩
      · simp [commonPrefixOf, h]

theorem pre_commonPrefixOf (s : List Char) :
    ∀ a b : List Char, s <+: a → s <+: b → s <+: commonPrefixOf a b := by
  induction s with
  | nil => intro a b _ _; exact List.nil_prefix
  | cons x xs ih =>
    intro a b ha hb
    obtain ⟨ta, rfl⟩ := ha
    obtain ⟨tb, rfl⟩ := hb
    simp only [List.cons_append, commonPrefixOf, if_pos rfl]
    exact List.cons_prefix_cons.mpr
      ⟨rfl, ih (xs ++ ta) (xs ++ tb) (List.prefix_append xs ta) (List.prefix_append xs tb)⟩

theorem foldl_cpo_pre (is : List (List Char)) :
    ∀ acc : List Char,
      (is.foldl commonPrefixOf acc <+: acc) ∧
      (∀ x ∈ is, is.foldl commonPrefixOf acc <+: x) := by
  induction is with
  | nil => intro acc; exact ⟨List.prefix_rfl, by simp⟩
  | cons i is ih =>
    intro acc
    have h := ih (commonPrefixOf acc i)
    refine ⟨h.1.trans (commonPrefixOf_pre_left acc i), ?_⟩
    intro x hx
    rcases List.mem_cons.mp hx with h' | h'
    · subst h'
      exact h.1.trans (commonPrefixOf_pre_right acc x)
    · exact h.2 x h'

theorem pre_foldl_cpo (is : List (List Char)) :
    ∀ (acc s : List Char), s <+: acc → (∀ x ∈ is, s <+: x) →
      s <+: is.foldl commonPrefixOf acc := by
  induction is with
  | nil => intro acc s hs _; exact hs
  | cons i is ih =>
    intro acc s hs hmem
    exact ih (commonPrefixOf acc i) s
      (pre_commonPrefixOf s acc i hs (hmem i (List.mem_cons_self i is)))
      (fun x hx => hmem x (List.mem_cons_of_mem i hx))

theorem getCommonIndent_pre (t : List Char) :
    ∀ l ∈ nonblankLines t, getCommonIndent t <+: leadingWs l := by
  intro l hl
  cases hnb : nonblankLines t with
  | nil => rw [hnb] at hl; cases hl
  | cons l0 ls =>
    have hg : getCommonIndent t = (ls.map leadingWs).foldl commonPrefixOf (leadingWs l0) := by
      unfold getCommonIndent
      rw [hnb]
    rw [hnb] at hl
    rcases List.mem_cons.mp hl with h' | h'
    · subst h'
      rw [hg]
      exact (foldl_cpo_pre (ls.map leadingWs) (leadingWs l)).1
    · rw [hg]
      exact (foldl_cpo_pre (ls.map leadingWs) (leadingWs l0)).2 (leadingWs l)
        (List.mem_map_of_mem leadingWs h')

theorem getCommonIndent_best (t : List Char) (h : nonblankLines t ≠ []) (s : List Char)
    (hs : ∀ l ∈ nonblankLines t, s <+: leadingWs l) : s <+: getCommonIndent t := by
  cases hnb : nonblankLines t with
  | nil => exact absurd hnb h
  | cons l0 ls =>
    have hg : getCommonIndent t = (ls.map leadingWs).foldl commonPrefixOf (leadingWs l0) := by
      unfold getCommonIndent
      rw [hnb]
    rw [hg]
    refine pre_foldl_cpo (ls.map leadingWs) (leadingWs l0) s ?_ ?_
    · exact hs l0 (hnb ▸ List.mem_cons_self l0 ls)
    · intro x hx
      obtain ⟨l, hl, rfl⟩ := List.mem_map.mp hx
      exact hs l (hnb ▸ List.mem_cons_of_mem l0 hl)

theorem getCommonIndent_empty (t : List Char) (h : nonblankLines t = []) :
    getCommonIndent t = [] := by
  unfold getCommonIndent
  rw [h]

/-- C2: for every text with at least one non-blank line, the computed
common indent is a literal character-wise prefix of the leading-whitespace
run of every non-blank line, and no longer string is such a common prefix;
with no non-blank lines the result is empty. -/
theorem c2_commonIndent_correct (t : List Char) :
    (nonblankLines t ≠ [] →
      (∀ l ∈ nonblankLines t, getCommonIndent t <+: leadingWs l) ∧
      (∀ s : List Char, (∀ l ∈ nonblankLines t, s <+: leadingWs l) →
        s.length ≤ (getCommonIndent t).length)) ∧
    (nonblankLines t = [] → getCommonIndent t = []) := by
  refine ⟨fun h => ⟨getCommonIndent_pre t, fun s hs => ?_⟩, getCommonIndent_empty t⟩
  exact (getCommonIndent_best t h s hs).length_le

/-- Witness for C2 at the concrete text of two indented lines. -/
theorem c2_commonIndent_correct_witness :
    (getCommonIndent ("  a\n   b".data) <+: leadingWs ("  a".data)) ∧
    (" ".data.length ≤ (getCommonIndent ("  a\n   b".data)).length) ∧
    getCommonIndent ("\n \n".data) = [] :=
  ⟨((c2_commonIndent_correct ("  a\n   b".data)).1 (by decide)).1 ("  a".data) (by decide),
   ((c2_commonIndent_correct ("  a\n   b".data)).1 (by decide)).2 (" ".data) (by decide),
   (c2_commonIndent_correct ("\n \n".data)).2 (by decide)⟩

/-- C3: the end-remapping computation of the changeListener and of the
manual widen agrees everywhere with the description in the claim (split on
`\n`, same line plus column shift for a single-line replacement, last
length of the last line otherwise), and matches the two quoted examples. -/
theorem c3_remapRangeEnd_correct :
    (∀ (s : Pos) (t : List Char), remapRangeEnd s t = remapRangeEndSpec s t) ∧
    remapRangeEnd ⟨2, 4⟩ ("ab\ncd".data) = ⟨3, 2⟩ ∧
    remapRangeEnd ⟨5, 0⟩ ("xyz".data) = ⟨5, 3⟩ := by
  refine ⟨fun s t => ?_, by decide, by decide⟩
  have h := splitLines_len_last t
  have hpos : 0 < (splitOnNl t).length := List.length_pos.mpr (splitOnNl_ne_nil t)
  simp only [remapRangeEnd, remapRangeEndSpec]
  rw [h.1, h.2]
  by_cases h1 : (splitOnNl t).length = 1
  · simp [h1]
  · have h2 : (splitOnNl t).length - 1 ≠ 0 := by omega
    simp [h1, h2]

/-- C9: with the empty indent both strip and restore return their input
unchanged (the JavaScript guard `if (!indent) return text`). -/
theorem c9_emptyIndent_identity (t : List Char) :
    removeIndent t [] = t ∧ addIndent t [] = t := by
  constructor <;> simp [removeIndent, addIndent]

theorem nl_not_mem_splitOnNl (t : List Char) : ∀ l ∈ splitOnNl t, '\n' ∉ l := by
  induction t with
  | nil =>
    intro l hl
    simp [splitOnNl] at hl
    subst hl
    simp
  | cons c rest ih =>
    intro l hl
    by_cases h : c = '\n'
    · subst h
      simp only [splitOnNl, if_pos rfl] at hl
      rcases List.mem_cons.mp hl with h' | h'
      · subst h'; simp
      · exact ih l h'
    · simp only [splitOnNl, if_neg h] at hl
      cases hsp : splitOnNl rest with
      | nil => exact absurd hsp (splitOnNl_ne_nil rest)
      | cons l0 ls =>
        rw [hsp] at hl
        simp only [consHead] at hl
        rcases List.mem_cons.mp hl with h' | h'
        · subst h'
          intro hmem
          rcases List.mem_cons.mp hmem with h'' | h''
          · exact h h''.symm
          · exact ih l0 (hsp ▸ List.mem_cons_self l0 ls) h''
        · exact ih l (hsp ▸ List.mem_cons_of_mem l0 h')

theorem mem_splitOnNl_mem (t : List Char) : ∀ l ∈ splitOnNl t, ∀ c ∈ l, c ∈ t := by
  induction t with
  | nil =>
    intro l hl c hc
    simp [splitOnNl] at hl
    subst hl
    cases hc
  | cons a rest ih =>
    intro l hl c hc
    by_cases h : a = '\n'
    · subst h
      simp only [splitOnNl, if_pos rfl] at hl
      rcases List.mem_cons.mp hl with h' | h'
      · subst h'; cases hc
      · exact List.mem_cons_of_mem _ (ih l h' c hc)
    · simp only [splitOnNl, if_neg h] at hl
      cases hsp : splitOnNl rest with
      | nil => exact absurd hsp (splitOnNl_ne_nil rest)
      | cons l0 ls =>
        rw [hsp] at hl
        simp only [consHead] at hl
        rcases List.mem_cons.mp hl with h' | h'
        · subst h'
          rcases List.mem_cons.mp hc with h'' | h''
          · subst h''; exact List.mem_cons_self c rest
          · exact List.mem_cons_of_mem _ (ih l0 (hsp ▸ List.mem_cons_self l0 ls) c h'')
        · exact List.mem_cons_of_mem _ (ih l (hsp ▸ List.mem_cons_of_mem l0 h') c hc)

/-- On carriage-return-free text the two split conventions coincide. -/
theorem splitLines_eq_splitOnNl (t : List Char) (h : '\r' ∉ t) :
    splitLines t = splitOnNl t := by
  induction t using splitLines.induct with
  | case1 => rfl
  | case2 rest ih =>
    rw [splitLines.eq_2, show splitOnNl ('\n' :: rest) = [] :: splitOnNl rest by simp [splitOnNl],
        ih (fun hc => h (List.mem_cons_of_mem _ hc))]
  | case3 rest ih => exact absurd (List.mem_cons_self '\r' _) h
  | case4 c rest h1 h2 ih =>
    have hc : ¬ c = '\n' := h1
    rw [splitLines.eq_4 c rest h1 h2,
        show splitOnNl (c :: rest) = consHead c (splitOnNl rest) by simp [splitOnNl, hc],
        ih (fun hr => h (List.mem_cons_of_mem _ hr))]

theorem splitOnNl_no_nl (l : List Char) (h : '\n' ∉ l) : splitOnNl l = [l] := by
  induction l with
  | nil => rfl
  | cons c rest ih =>
    have hc : ¬ c = '\n' := fun he => h (he ▸ List.mem_cons_self c rest)
    rw [show splitOnNl (c :: rest) = consHead c (splitOnNl rest) by simp [splitOnNl, hc],
        ih (fun hm => h (List.mem_cons_of_mem c hm))]
    rfl

theorem splitOnNl_append_nl (l s : List Char) (h : '\n' ∉ l) :
    splitOnNl (l ++ '\n' :: s) = l :: splitOnNl s := by
  induction l with
  | nil => simp [splitOnNl]
  | cons c rest ih =>
    have hc : ¬ c = '\n' := fun he => h (he ▸ List.mem_cons_self c rest)
    rw [List.cons_append,
        show splitOnNl (c :: (rest ++ '\n' :: s)) = consHead c (splitOnNl (rest ++ '\n' :: s)) by
          simp [splitOnNl, hc],
        ih (fun hm => h (List.mem_cons_of_mem c hm))]
    rfl

/-- Splitting undoes joining as long as no line holds a `\n` itself. -/
theorem splitOnNl_joinN (ls : List (List Char)) (hne : ls ≠ [])
    (h : ∀ l ∈ ls, '\n' ∉ l) : splitOnNl (joinN ls) = ls := by
  induction ls with
  | nil => exact absurd rfl hne
  | cons l ls ih =>
    cases ls with
    | nil => exact splitOnNl_no_nl l (h l (List.mem_cons_self l []))
    | cons l2 ls2 =>
      rw [show joinN (l :: l2 :: ls2) = l ++ '\n' :: joinN (l2 :: ls2) from rfl,
          splitOnNl_append_nl l _ (h l (List.mem_cons_self l _)),
          ih (by simp) (fun x hx => h x (List.mem_cons_of_mem _ hx))]

theorem mem_joinN (ls : List (List Char)) (c : Char) (hc : c ∈ joinN ls) :
    c = '\n' ∨ ∃ l ∈ ls, c ∈ l := by
  induction ls with
  | nil => cases hc
  | cons l ls ih =>
    cases ls with
    | nil => exact Or.inr ⟨l, List.mem_cons_self l [], hc⟩
    | cons l2 ls2 =>
      rw [show joinN (l :: l2 :: ls2) = l ++ '\n' :: joinN (l2 :: ls2) from rfl] at hc
      rcases List.mem_append.mp hc with h' | h'
      · exact Or.inr ⟨l, List.mem_cons_self l _, h'⟩
      · rcases List.mem_cons.mp h' with h'' | h''
        · exact Or.inl h''
        · rcases ih h'' with h3 | ⟨l', hl', hcl⟩
          · exact Or.inl h3
          · exact Or.inr ⟨l', List.mem_cons_of_mem _ hl', hcl⟩

theorem isPrefixOf_eq_true {l₁ l₂ : List Char} : l₁.isPrefixOf l₂ = true ↔ l₁ <+: l₂ := by
  induction l₁ generalizing l₂ with
  | nil => simp [List.isPrefixOf]
  | cons a as ih =>
    cases l₂ with
    | nil => simp [List.isPrefixOf]
    | cons b bs => simp [List.isPrefixOf, List.cons_prefix_cons, ih]

theorem mem_getCommonIndent (t : List Char) (c : Char) (hc : c ∈ getCommonIndent t) :
    ∃ l ∈ splitLines t, c ∈ l := by
  cases hnb : nonblankLines t with
  | nil =>
    rw [getCommonIndent_empty t hnb] at hc
    cases hc
  | cons l0 ls' =>
    have h0 : l0 ∈ nonblankLines t := hnb ▸ List.mem_cons_self l0 ls'
    have hp : getCommonIndent t <+: leadingWs l0 := getCommonIndent_pre t l0 h0
    have hc0 : c ∈ leadingWs l0 := hp.subset hc
    have hcl : c ∈ l0 :=
      (List.takeWhile_append_dropWhile isWs l0) ▸ List.mem_append_left _ hc0
    exact ⟨l0, List.mem_of_mem_filter h0, hcl⟩

theorem getCommonIndent_ws (t : List Char) (c : Char) (hc : c ∈ getCommonIndent t) :
    isWs c = true := by
  cases hnb : nonblankLines t with
  | nil =>
    rw [getCommonIndent_empty t hnb] at hc
    cases hc
  | cons l0 ls' =>
    have h0 : l0 ∈ nonblankLines t := hnb ▸ List.mem_cons_self l0 ls'
    have hp : getCommonIndent t <+: leadingWs l0 := getCommonIndent_pre t l0 h0
    exact List.mem_takeWhile_imp (hp.subset hc)

/-- With a non-empty common indent and carriage-return-free input, the
round trip rebuilds the text line by line: each original line goes through
strip-then-indent. -/
theorem roundTrip_lines (t : List Char) (hr : '\r' ∉ t)
    (hne : getCommonIndent t ≠ []) :
    splitLines (addIndent (removeIndent t (getCommonIndent t)) (getCommonIndent t)) =
      (splitLines t).map
        (indentLine (getCommonIndent t) ∘ stripLine (getCommonIndent t)) := by
  have hsl : splitLines t = splitOnNl t := splitLines_eq_splitOnNl t hr
  have hlnl : ∀ l ∈ splitLines t, '\n' ∉ l := by
    rw [hsl]
    exact nl_not_mem_splitOnNl t
  have hlcr : ∀ l ∈ splitLines t, '\r' ∉ l := by
    rw [hsl]
    intro l hl hc
    exact hr (mem_splitOnNl_mem t l hl '\r' hc)
  have hInl : '\n' ∉ getCommonIndent t := by
    intro hc
    obtain ⟨l, hl, hcl⟩ := mem_getCommonIndent t '\n' hc
    exact hlnl l hl hcl
  have hIcr : '\r' ∉ getCommonIndent t := by
    intro hc
    obtain ⟨l, hl, hcl⟩ := mem_getCommonIndent t '\r' hc
    exact hlcr l hl hcl
  have hstrip_sub : ∀ (l : List Char), ∀ c ∈ stripLine (getCommonIndent t) l, c ∈ l := by
    intro l c hc
    unfold stripLine at hc
    split at hc
    · exact List.drop_subset _ _ hc
    · exact hc
  have hind_sub : ∀ (y : List Char), ∀ c ∈ indentLine (getCommonIndent t) y,
      c ∈ getCommonIndent t ∨ c ∈ y := by
    intro y c hc
    unfold indentLine at hc
    split at hc
    · exact List.mem_append.mp hc
    · exact Or.inr hc
  have hxnl : ∀ l' ∈ (splitLines t).map (stripLine (getCommonIndent t)), '\n' ∉ l' := by
    intro l' hl'
    obtain ⟨l, hl, rfl⟩ := List.mem_map.mp hl'
    exact fun hc => hlnl l hl (hstrip_sub l '\n' hc)
  have hxne : (splitLines t).map (stripLine (getCommonIndent t)) ≠ [] := by
    simp [splitLines_ne_nil t]
  have hxcr : '\r' ∉ joinN ((splitLines t).map (stripLine (getCommonIndent t))) := by
    intro hc
    rcases mem_joinN _ '\r' hc with h' | ⟨l', hl', hcl⟩
    · exact absurd h' (by decide)
    · obtain ⟨l, hl, rfl⟩ := List.mem_map.mp hl'
      exact hlcr l hl (hstrip_sub l '\r' hcl)
  have hxsplit :
      splitLines (joinN ((splitLines t).map (stripLine (getCommonIndent t)))) =
        (splitLines t).map (stripLine (getCommonIndent t)) := by
    rw [splitLines_eq_splitOnNl _ hxcr]
    exact splitOnNl_joinN _ hxne hxnl
  have hynl : ∀ l' ∈ (splitLines t).map
      (indentLine (getCommonIndent t) ∘ stripLine (getCommonIndent t)), '\n' ∉ l' := by
    intro l' hl'
    obtain ⟨l, hl, rfl⟩ := List.mem_map.mp hl'
    intro hc
    rcases hind_sub _ '\n' hc with h' | h'
    · exact hInl h'
    · exact hlnl l hl (hstrip_sub l '\n' h')
  have hyne : (splitLines t).map
      (indentLine (getCommonIndent t) ∘ stripLine (getCommonIndent t)) ≠ [] := by
    simp [splitLines_ne_nil t]
  have hycr : '\r' ∉ joinN ((splitLines t).map
      (indentLine (getCommonIndent t) ∘ stripLine (getCommonIndent t))) := by
    intro hc
    rcases mem_joinN _ '\r' hc with h' | ⟨l', hl', hcl⟩
    · exact absurd h' (by decide)
    · obtain ⟨l, hl, rfl⟩ := List.mem_map.mp hl'
      rcases hind_sub _ '\r' hcl with h' | h'
      · exact hIcr h'
      · exact hlcr l hl (hstrip_sub l '\r' h')
  rw [removeIndent, if_neg hne, addIndent, if_neg hne, hxsplit, List.map_map,
      splitLines_eq_splitOnNl _ hycr]
  exact splitOnNl_joinN _ hyne hynl

/-- C1 (amended): for every text whose line endings are already normalized
to `\n`, the round trip with the computed common indent reproduces every
non-blank line exactly and keeps every empty line empty.  (Whitespace-only
non-empty lines are NOT returned as empty lines — see the
counterexample.) -/
theorem c1_roundTrip_amended (t : List Char) (hr : '\r' ∉ t) :
    List.Forall₂
      (fun a b : List Char => (isBlank a = false → b = a) ∧ (a = [] → b = []))
      (splitLines t)
      (splitLines (addIndent (removeIndent t (getCommonIndent t)) (getCommonIndent t))) := by
  by_cases hI : getCommonIndent t = []
  · rw [hI, show removeIndent t [] = t by simp [removeIndent],
        show addIndent t [] = t by simp [addIndent]]
    exact List.forall₂_same.mpr (fun a _ => ⟨fun _ => rfl, fun h => h⟩)
  · rw [roundTrip_lines t hr hI]
    refine List.forall₂_map_right_iff.mpr (List.forall₂_same.mpr ?_)
    intro l hl
    refine ⟨?_, ?_⟩
    · intro hbl
      have hlmem : l ∈ nonblankLines t := List.mem_filter.mpr ⟨hl, by simp [hbl]⟩
      have hp : getCommonIndent t <+: leadingWs l := getCommonIndent_pre t l hlmem
      have hpl : getCommonIndent t <+: l :=
        hp.trans ⟨List.dropWhile isWs l, List.takeWhile_append_dropWhile isWs l⟩
      obtain ⟨r, hrEq⟩ := hpl
      have hstrip : stripLine (getCommonIndent t) l = r := by
        unfold stripLine
        rw [if_pos (isPrefixOf_eq_true.mpr ⟨r, hrEq⟩), ← hrEq, List.drop_left]
      have hrne : r ≠ [] := by
        intro h0
        subst h0
        rw [List.append_nil] at hrEq
        subst hrEq
        have hbT : isBlank (getCommonIndent t) = true :=
          List.all_eq_true.mpr (fun c hc => getCommonIndent_ws t c hc)
        exact absurd (hbT.symm.trans hbl) (by decide)
      have hind : indentLine (getCommonIndent t) r = getCommonIndent t ++ r := by
        unfold indentLine
        rw [if_pos]
        exact List.length_pos.mpr hrne
      show indentLine (getCommonIndent t) (stripLine (getCommonIndent t) l) = l
      rw [hstrip, hind, hrEq]
    · intro h0
      subst h0
      show indentLine (getCommonIndent t) (stripLine (getCommonIndent t) []) = []
      simp [stripLine, indentLine]

/-- C1 counterexample: in `"  a\n \n  b"` the middle line is blank
(whitespace-only) yet non-empty; the round trip turns it into three
spaces, not into an empty line, so blank whitespace-only lines do not come
back empty. -/
theorem c1_roundTrip_counterexample :
    isBlank (" ".data) = true ∧ (" ".data : List Char) ≠ [] ∧
    (splitLines ("  a\n \n  b".data))[1]? = some (" ".data) ∧
    (splitLines (addIndent (removeIndent ("  a\n \n  b".data)
        (getCommonIndent ("  a\n \n  b".data)))
        (getCommonIndent ("  a\n \n  b".data))))[1]? = some ("   ".data) ∧
    ("   ".data : List Char) ≠ [] := by decide

/-- Witness for the amended C1 at a concrete text of two indented lines
around an empty line. -/
theorem c1_roundTrip_amended_witness :
    List.Forall₂
      (fun a b : List Char => (isBlank a = false → b = a) ∧ (a = [] → b = []))
      (splitLines ("  a\n\n  b".data))
      (splitLines (addIndent (removeIndent ("  a\n\n  b".data)
        (getCommonIndent ("  a\n\n  b".data))) (getCommonIndent ("  a\n\n  b".data)))) :=
  c1_roundTrip_amended ("  a\n\n  b".data) (by decide)

/-- The per-activation mutable state shared by the commands (both
variants): `activeOriginalUri`, `activeRange`, `tempFilePath`,
`baseIndent`, plus the `originalLanguageId` of the auto-sync variant.
Document identities and paths are opaque data here. -/
structure EditorState where
  activeOriginalUri : Option Nat
  activeRange : Option Range
  tempFilePath : Option (List Char)
  baseIndent : List Char
  originalLanguageId : List Char
deriving DecidableEq

/-- The host-supplied facts a narrow command reads: whether an active
editor with a non-empty selection exists, the selected document, range and
text, the path pieces used to build the temp-file name, the lower-cased
extension, and the language id of the document. -/
structure NarrowInput where
  editorPresent : Bool
  selectionEmpty : Bool
  docUri : Nat
  selection : Range
  selectedText : List Char
  docDir : List Char
  docBase : List Char
  docExtLower : List Char
  languageId : List Char
deriving DecidableEq

/-- `path.join(path.dirname(f), ".narrow." + path.basename(f))` for
POSIX-style paths. -/
def mkTempPath (dir base : List Char) : List Char :=
  dir ++ '/' :: (".narrow.".data ++ base)

/-- The narrow command of the manual-widen variant (part_000 lines 34-75):
guarded by no-active-session, by an editor with a non-empty selection and
by the `.js`/`.html` extension gate; on success it records the session
fields (the remaining I/O steps do not touch them). -/
def narrowManual (st : EditorState) (inp : NarrowInput) : EditorState :=
  if st.tempFilePath.isSome then st
  else if !inp.editorPresent || inp.selectionEmpty then st
  else if inp.docExtLower = ".js".data ∨ inp.docExtLower = ".html".data then
    { st with
      activeOriginalUri := some inp.docUri
      activeRange := some inp.selection
      baseIndent := getCommonIndent inp.selectedText
      tempFilePath := some (mkTempPath inp.docDir inp.docBase) }
  else st

/-- The narrow command of the auto-sync variant (extension.ts lines
37-72): it has neither a session guard nor an extension gate — any editor
with a non-empty selection overwrites every session field. -/
def narrowAuto (st : EditorState) (inp : NarrowInput) : EditorState :=
  if !inp.editorPresent || inp.selectionEmpty then st
  else
    { st with
      activeOriginalUri := some inp.docUri
      activeRange := some inp.selection
      originalLanguageId := inp.languageId
      baseIndent := getCommonIndent inp.selectedText
      tempFilePath := some (mkTempPath inp.docDir inp.docBase) }

/-- `addIndent(editedText, baseIndent)` — the text a sync hands to the
replace-edit. -/
def restoredText (st : EditorState) (editedText : List Char) : List Char :=
  addIndent editedText st.baseIndent

/-- The debounced timer callback of the changeListener (extension.ts lines
105-124), given the current text of the detached buffer and the verdict of
`workspace.applyEdit`: on success `activeRange` keeps its start and gets
the remapped end; on failure nothing is written to the session. -/
def syncFire (st : EditorState) (editedText : List Char) (success : Bool) : EditorState :=
  match st.activeRange with
  | none => st
  | some r =>
    if success then
      { st with
        activeRange := some ⟨r.start, remapRangeEnd r.start (restoredText st editedText)⟩ }
    else st

/-- Outcome of the `fs.existsSync`/`fs.unlinkSync` pair on session end:
the file was already absent (unlink skipped), the unlink succeeded, or the
unlink threw. -/
inductive DeleteOutcome
  | fileAbsent
  | deleteOk
  | deleteThrows
deriving DecidableEq

/-- The session-field reset shared by both widen commands. -/
def clearSession (st : EditorState) : EditorState :=
  { st with tempFilePath := none, activeOriginalUri := none, activeRange := none }

/-- The widen command of the auto-sync variant (extension.ts lines 75-99)
restricted to the session fields: guarded by `tempFilePath` and
`activeOriginalUri`; a throwing `unlinkSync` propagates out of the handler
before the three clearing assignments run. -/
def widenAuto (st : EditorState) (del : DeleteOutcome) : EditorState :=
  match st.tempFilePath, st.activeOriginalUri with
  | some _, some _ =>
    match del with
    | .deleteThrows => st
    | _ => clearSession st
  | _, _ => st

/-- What a manual widen run yields besides the final state: the text
handed to the replace-edit, whether the narrow editor was closed via
`revertAndCloseActiveEditor` (discarded without saving), and whether the
temp file got unlinked. -/
structure WidenResult where
  state : EditorState
  writtenBack : Option (List Char)
  revertedNarrowEditor : Bool
  deletedTempFile : Bool
deriving DecidableEq

/-- The widen command of the manual-widen variant (part_000 lines 78-121):
guarded by all three session fields; re-indents the final buffer text and
requests the replace-edit without ever reading its verdict (the
`applyEditSuccess` argument is accordingly never used), reverts the narrow
editor when visible, unlinks the temp file when it exists (a throwing
`unlinkSync` aborts before the clearing assignments), and clears the
session. -/
def widenManual (st : EditorState) (finalText : List Char)
    (applyEditSuccess : Bool) (tempEditorVisible : Bool) (del : DeleteOutcome) : WidenResult :=
  match st.tempFilePath, st.activeOriginalUri, st.activeRange with
  | some _, some _, some _ =>
    let textToRestore := addIndent finalText st.baseIndent
    match del with
    | .deleteThrows => ⟨st, some textToRestore, tempEditorVisible, false⟩
    | .fileAbsent => ⟨clearSession st, some textToRestore, tempEditorVisible, false⟩
    | .deleteOk => ⟨clearSession st, some textToRestore, tempEditorVisible, true⟩
  | _, _, _ => ⟨st, none, false, false⟩

/-- The pending debounce timer of the changeListener: `syncTimer` together
with the buffer content its callback will read when it fires. -/
structure DebounceState where
  pendingText : Option (List Char)
deriving DecidableEq

/-- Events on the detached buffer while a session is active: an edit
(carrying the buffer content after it) or the expiry of the 300 ms quiet
window. -/
inductive BufferEvent
  | edit (content : List Char)
  | timerFire
deriving DecidableEq

/-- One event of the debounce protocol of the changeListener (extension.ts
lines 104-124): an edit cancels the pending timer (`clearTimeout`) and
schedules a fresh sync for the new content; a timer expiry performs the
pending sync, emitting the content it writes back. -/
def debounceStep (st : DebounceState) : BufferEvent → DebounceState × List (List Char)
  | .edit c => (⟨some c⟩, [])
  | .timerFire =>
    match st.pendingText with
    | some c => (⟨none⟩, [c])
    | none => (st, [])

/-- Run a sequence of buffer events, collecting every write-back. -/
def debounceRun (st : DebounceState) : List BufferEvent → DebounceState × List (List Char)
  | [] => (st, [])
  | ev :: evs =>
    ((debounceRun (debounceStep st ev).1 evs).1,
      (debounceStep st ev).2 ++ (debounceRun (debounceStep st ev).1 evs).2)

/-- A concrete active session used by the closed instances below. -/
def stDemo : EditorState :=
  { activeOriginalUri := some 7
    activeRange := some ⟨⟨4, 2⟩, ⟨5, 6⟩⟩
    tempFilePath := some ("/w/.narrow.a.js".data)
    baseIndent := "  ".data
    originalLanguageId := "javascript".data }

/-- A concrete narrow request whose selection differs from the session in
`stDemo`. -/
def inpDemo : NarrowInput :=
  { editorPresent := true
    selectionEmpty := false
    docUri := 9
    selection := ⟨⟨0, 0⟩, ⟨1, 4⟩⟩
    selectedText := "    x\n    y".data
    docDir := "/w".data
    docBase := "b.js".data
    docExtLower := ".js".data
    languageId := "javascript".data }

/-- The active session of the C5 scenario: `baseIndent` computed from the
selection `"    foo();\n    bar();"`. -/
def stScenario : EditorState :=
  { activeOriginalUri := some 7
    activeRange := some ⟨⟨4, 2⟩, ⟨5, 10⟩⟩
    tempFilePath := some ("/w/.narrow.a.js".data)
    baseIndent := getCommonIndent ("    foo();\n    bar();".data)
    originalLanguageId := "javascript".data }

/-- C4 counterexample: in the auto-sync variant a second narrow while
the `stDemo` session is active overwrites the session — `baseIndent`,
`tempFilePath` and `activeRange` all change — instead of being rejected
or ignored. -/
theorem c4_secondNarrow_counterexample :
    stDemo.tempFilePath.isSome = true ∧
    narrowAuto stDemo inpDemo ≠ stDemo ∧
    (narrowAuto stDemo inpDemo).baseIndent ≠ stDemo.baseIndent ∧
    (narrowAuto stDemo inpDemo).tempFilePath ≠ stDemo.tempFilePath ∧
    (narrowAuto stDemo inpDemo).activeRange ≠ stDemo.activeRange := by
  decide

/-- C4 (amended): the manual-widen variant rejects a second narrow while a
session is active and leaves the state unchanged; the auto-sync variant
has no such guard — a second narrow with a live non-empty selection
replaces every session field from the new selection. -/
theorem c4_secondNarrow_amended (st : EditorState) (inp : NarrowInput) :
    (st.tempFilePath.isSome = true → narrowManual st inp = st) ∧
    (inp.editorPresent = true → inp.selectionEmpty = false →
      narrowAuto st inp =
        { st with
          activeOriginalUri := some inp.docUri
          activeRange := some inp.selection
          originalLanguageId := inp.languageId
          baseIndent := getCommonIndent inp.selectedText
          tempFilePath := some (mkTempPath inp.docDir inp.docBase) }) := by
  constructor
  · intro h
    simp [narrowManual, h]
  · intro h1 h2
    simp [narrowAuto, h1, h2]

/-- Witness for the amended C4 at the concrete session and request. -/
theorem c4_secondNarrow_amended_witness :
    narrowManual stDemo inpDemo = stDemo ∧
    narrowAuto stDemo inpDemo =
      { stDemo with
        activeOriginalUri := some inpDemo.docUri
        activeRange := some inpDemo.selection
        originalLanguageId := inpDemo.languageId
        baseIndent := getCommonIndent inpDemo.selectedText
        tempFilePath := some (mkTempPath inpDemo.docDir inpDemo.docBase) } :=
  ⟨(c4_secondNarrow_amended stDemo inpDemo).1 (by decide),
   (c4_secondNarrow_amended stDemo inpDemo).2 (by decide) (by decide)⟩

/-- C5 counterexample: in the claimed scenario the synced tracked-range
end lands at column 10 — `"    qux();"` has ten characters — not at the
claimed column 9. -/
theorem c5_scenario_counterexample :
    (syncFire stScenario ("foo();\nbaz();\nqux();".data) true).activeRange =
      some ⟨⟨4, 2⟩, ⟨6, 10⟩⟩ ∧
    ((⟨6, 10⟩ : Pos) ≠ ⟨6, 9⟩) := by
  decide

/-- C5 (amended): with `baseIndent` computed from the selection
`"    foo();\n    bar();"` (namely four spaces) and the detached buffer
edited to `"foo();\nbaz();\nqux();"`, the sync writes back exactly
`"    foo();\n    baz();\n    qux();"` and the tracked range end becomes
`(startLine + 2, 10)`, for every start position. -/
theorem c5_scenario_amended (st : EditorState) (L c : Nat) (e : Pos)
    (hb : st.baseIndent = getCommonIndent ("    foo();\n    bar();".data))
    (hrange : st.activeRange = some ⟨⟨L, c⟩, e⟩) :
    restoredText st ("foo();\nbaz();\nqux();".data) =
      "    foo();\n    baz();\n    qux();".data ∧
    (syncFire st ("foo();\nbaz();\nqux();".data) true).activeRange =
      some ⟨⟨L, c⟩, ⟨L + 2, 10⟩⟩ := by
  have hbi : getCommonIndent ("    foo();\n    bar();".data) = "    ".data := by decide
  have hrt : restoredText st ("foo();\nbaz();\nqux();".data) =
      "    foo();\n    baz();\n    qux();".data := by
    rw [restoredText, hb, hbi]
    decide
  have hsplit : splitLines ("    foo();\n    baz();\n    qux();".data) =
      ["    foo();".data, "    baz();".data, "    qux();".data] := by decide
  have hlen : (["    foo();".data, "    baz();".data, "    qux();".data] :
      List (List Char)).length = 3 := by decide
  have hgl : (["    foo();".data, "    baz();".data, "    qux();".data] :
      List (List Char)).getLastD [] = "    qux();".data := by decide
  have h10 : ("    qux();".data).length = 10 := by decide
  have hremap : remapRangeEnd ⟨L, c⟩ ("    foo();\n    baz();\n    qux();".data) =
      ⟨L + 2, 10⟩ := by
    simp only [remapRangeEnd, hsplit, hlen, hgl, h10]
    norm_num
  refine ⟨hrt, ?_⟩
  simp only [syncFire, hrange, if_true]
  simp only [hrt, hremap]

/-- Witness for the amended C5 at the concrete scenario session. -/
theorem c5_scenario_amended_witness :
    restoredText stScenario ("foo();\nbaz();\nqux();".data) =
      "    foo();\n    baz();\n    qux();".data ∧
    (syncFire stScenario ("foo();\nbaz();\nqux();".data) true).activeRange =
      some ⟨⟨4, 2⟩, ⟨6, 10⟩⟩ :=
  c5_scenario_amended stScenario 4 2 ⟨5, 10⟩ (by decide) (by decide)

/-- C6: when the host rejects the replace-edit the debounced sync changes
nothing — the state (hence the session and its tracked range) is exactly
as before — and only a successful edit re-points the tracked range end
through the remapping computation. -/
theorem c6_rejectedSync_dropped (st : EditorState) (edited : List Char) (r : Range)
    (h : st.activeRange = some r) :
    syncFire st edited false = st ∧
    (syncFire st edited false).tempFilePath = st.tempFilePath ∧
    syncFire st edited true =
      { st with
        activeRange := some ⟨r.start, remapRangeEnd r.start (restoredText st edited)⟩ } := by
  refine ⟨?_, ?_, ?_⟩ <;> simp [syncFire, h]

/-- Witness for C6 at the concrete session. -/
theorem c6_rejectedSync_dropped_witness :
    syncFire stDemo ("x".data) false = stDemo ∧
    (syncFire stDemo ("x".data) false).tempFilePath = stDemo.tempFilePath ∧
    syncFire stDemo ("x".data) true =
      { stDemo with
        activeRange := some ⟨⟨4, 2⟩, remapRangeEnd ⟨4, 2⟩ (restoredText stDemo ("x".data))⟩ } :=
  c6_rejectedSync_dropped stDemo ("x".data) ⟨⟨4, 2⟩, ⟨5, 6⟩⟩ (by decide)

/-- C7 counterexample: a throwing `unlinkSync` aborts the widen handler of
the auto-sync variant before the clearing assignments, so on this deletion
failure the session is NOT cleared back to idle. -/
theorem c7_widenClears_counterexample :
    widenAuto stDemo DeleteOutcome.deleteThrows = stDemo ∧
    stDemo.tempFilePath ≠ none ∧ stDemo.activeOriginalUri ≠ none := by
  decide

/-- C7 (amended): widen clears the session whenever the deletion step does
not throw — in particular also when the temp file is already gone and the
`existsSync` guard skips the unlink; but a throwing `unlinkSync`
propagates and leaves the session fields set, in both variants. -/
theorem c7_widenClears_amended (st : EditorState) (del : DeleteOutcome)
    (finalText : List Char) (s v : Bool)
    (hdel : del ≠ DeleteOutcome.deleteThrows)
    (h1 : st.tempFilePath.isSome = true) (h2 : st.activeOriginalUri.isSome = true) :
    widenAuto st del = clearSession st ∧
    (st.activeRange.isSome = true →
      (widenManual st finalText s v del).state = clearSession st) := by
  obtain ⟨p, hp⟩ := Option.isSome_iff_exists.mp h1
  obtain ⟨u, hu⟩ := Option.isSome_iff_exists.mp h2
  constructor
  · cases del with
    | fileAbsent => simp [widenAuto, hp, hu]
    | deleteOk => simp [widenAuto, hp, hu]
    | deleteThrows => exact absurd rfl hdel
  · intro h3
    obtain ⟨r, hr⟩ := Option.isSome_iff_exists.mp h3
    cases del with
    | fileAbsent => simp [widenManual, hp, hu, hr]
    | deleteOk => simp [widenManual, hp, hu, hr]
    | deleteThrows => exact absurd rfl hdel

/-- Witness for the amended C7 at the concrete session with a successful
deletion. -/
theorem c7_widenClears_amended_witness :
    widenAuto stDemo DeleteOutcome.deleteOk = clearSession stDemo ∧
    (widenManual stDemo ("x".data) false true DeleteOutcome.deleteOk).state =
      clearSession stDemo :=
  ⟨(c7_widenClears_amended stDemo DeleteOutcome.deleteOk ("x".data) false true
      (by decide) (by decide) (by decide)).1,
   (c7_widenClears_amended stDemo DeleteOutcome.deleteOk ("x".data) false true
      (by decide) (by decide) (by decide)).2 (by decide)⟩

theorem debounceRun_edits_fire (cs : List (List Char)) (st : DebounceState) :
    cs ≠ [] →
    debounceRun st (cs.map BufferEvent.edit ++ [BufferEvent.timerFire]) =
      (⟨none⟩, [cs.getLastD []]) := by
  induction cs generalizing st with
  | nil => intro h; exact absurd rfl h
  | cons c cs ih =>
    intro _
    cases cs with
    | nil => rfl
    | cons c2 cs2 =>
      have e1 : (c :: c2 :: cs2).map BufferEvent.edit ++ [BufferEvent.timerFire] =
          BufferEvent.edit c ::
            ((c2 :: cs2).map BufferEvent.edit ++ [BufferEvent.timerFire]) := rfl
      have e2 : debounceStep st (BufferEvent.edit c) =
          ((⟨some c⟩ : DebounceState), ([] : List (List Char))) := rfl
      rw [e1, debounceRun, e2, ih ⟨some c⟩ (by simp)]
      simp [List.getLastD_cons]

/-- C8: edits inside one quiet window collapse — performing any non-empty
sequence of edits followed by the single timer expiry produces exactly one
write-back, carrying the content after the last edit only; and every new
edit replaces whatever sync was pending. -/
theorem c8_debounce_collapses :
    (∀ cs : List (List Char), cs ≠ [] →
      debounceRun ⟨none⟩ (cs.map BufferEvent.edit ++ [BufferEvent.timerFire]) =
        (⟨none⟩, [cs.getLastD []])) ∧
    (∀ (st : DebounceState) (c : List Char),
      debounceStep st (BufferEvent.edit c) = (⟨some c⟩, [])) :=
  ⟨fun cs h => debounceRun_edits_fire cs ⟨none⟩ h, fun _ _ => rfl⟩

/-- Witness for C8: three edits then the timer — one write-back with the
third content. -/
theorem c8_debounce_collapses_witness :
    debounceRun ⟨none⟩
      ((["a".data, "ab".data, "abc".data] : List (List Char)).map BufferEvent.edit ++
        [BufferEvent.timerFire]) =
      (⟨none⟩, ["abc".data]) :=
  c8_debounce_collapses.1 ["a".data, "ab".data, "abc".data] (by decide)

/-- C10: the manual widen never inspects the `applyEdit` verdict — its
whole result is identical for success and failure — and with an active
session (and a clean delete) the failed-edit run still reverts the narrow
editor (discarding without saving), unlinks the temp file, hands the
re-indented text to the replace-edit, and clears the session to idle, so
the edited content is lost with no retry. -/
theorem c10_widenIgnoresApplyEdit (st : EditorState) (finalText : List Char)
    (s1 s2 v : Bool) (del : DeleteOutcome) :
    widenManual st finalText s1 v del = widenManual st finalText s2 v del ∧
    (st.tempFilePath.isSome = true → st.activeOriginalUri.isSome = true →
      st.activeRange.isSome = true →
      (widenManual st finalText false v DeleteOutcome.deleteOk).state = clearSession st ∧
      (widenManual st finalText false v DeleteOutcome.deleteOk).writtenBack =
        some (addIndent finalText st.baseIndent) ∧
      (widenManual st finalText false v DeleteOutcome.deleteOk).revertedNarrowEditor = v ∧
      (widenManual st finalText false v DeleteOutcome.deleteOk).deletedTempFile = true) := by
  constructor
  · rfl
  · intro h1 h2 h3
    obtain ⟨p, hp⟩ := Option.isSome_iff_exists.mp h1
    obtain ⟨u, hu⟩ := Option.isSome_iff_exists.mp h2
    obtain ⟨r, hr⟩ := Option.isSome_iff_exists.mp h3
    simp [widenManual, hp, hu, hr]

/-- Witness for C10 at the concrete session. -/
theorem c10_widenIgnoresApplyEdit_witness :
    widenManual stDemo ("x".data) false true DeleteOutcome.deleteOk =
      widenManual stDemo ("x".data) true true DeleteOutcome.deleteOk ∧
    (widenManual stDemo ("x".data) false true DeleteOutcome.deleteOk).state =
      clearSession stDemo ∧
    (widenManual stDemo ("x".data) false true DeleteOutcome.deleteOk).writtenBack =
      some (addIndent ("x".data) stDemo.baseIndent) ∧
    (widenManual stDemo ("x".data) false true DeleteOutcome.deleteOk).revertedNarrowEditor =
      true ∧
    (widenManual stDemo ("x".data) false true DeleteOutcome.deleteOk).deletedTempFile =
      true := by
  have h := c10_widenIgnoresApplyEdit stDemo ("x".data) false true true DeleteOutcome.deleteOk
  have h2 := h.2 (by decide) (by decide) (by decide)
  exact ⟨h.1, h2.1, h2.2.1, h2.2.2.1, h2.2.2.2⟩

end Marmot
